import Mathlib

/-!
Shallow embedding of `src/app/utils/parsers/pls.js` (the `plsParser` function
and its constants).  Strings are modelled as `List Char`; every JavaScript
string primitive used by the source (`slice`, `substring`, `indexOf`,
`search(/\d/)`, `split`, `startsWith`) is given its exact JavaScript
semantics, including negative-index clamping and the `-1` result for a
missing match.  JavaScript field values (numbers, strings, `undefined`) are
modelled by `JSVal`.
-/

namespace PlsParser

/-- A JavaScript value that can sit in one of the parsed object's fields:
a number, a string, or `undefined` (the result of indexing a split past its
end). -/
inductive JSVal where
  | num (n : Int)
  | str (s : List Char)
  | undefined
deriving DecidableEq

/-- First index at which the predicate holds, `none` when it never holds.
Backs the embeddings of JavaScript `indexOf` and `search`. -/
def firstIdx (p : Char → Bool) : List Char → Option Nat
  | [] => none
  | x :: xs => if p x then some 0 else (firstIdx p xs).map (· + 1)

/-- JavaScript `str.indexOf(c)`: the first index of `c`, or `-1`. -/
def jsIndexOf (c : Char) (l : List Char) : Int :=
  match firstIdx (fun x => x == c) l with
  | some n => (n : Int)
  | none => -1

/-- JavaScript `str.search(/\d/)`: the first index of a decimal digit, or `-1`. -/
def jsSearchDigit (l : List Char) : Int :=
  match firstIdx (fun x => x.isDigit) l with
  | some n => (n : Int)
  | none => -1

/-- JavaScript `slice` index normalization: a negative index counts from the
end (clamped at 0), a nonnegative one is clamped at the length. -/
def jsNormIdx (len : Nat) (i : Int) : Nat :=
  if i < 0 then ((len : Int) + i).toNat else min i.toNat len

/-- JavaScript `str.slice(s, e)`. -/
def jsSlice2 (l : List Char) (s e : Int) : List Char :=
  (l.take (jsNormIdx l.length e)).drop (jsNormIdx l.length s)

/-- JavaScript `str.slice(s)` (to the end of the string). -/
def jsSlice1 (l : List Char) (s : Int) : List Char :=
  l.drop (jsNormIdx l.length s)

/-- JavaScript `substring` index normalization: negative indices are clamped
to 0 (`Int.toNat` already sends negatives to 0), large ones to the length. -/
def jsClamp (len : Nat) (i : Int) : Nat := min i.toNat len

/-- JavaScript `str.substring(s, e)`: both indices clamped into range and
swapped when out of order. -/
def jsSubstring2 (l : List Char) (s e : Int) : List Char :=
  (l.take (max (jsClamp l.length s) (jsClamp l.length e))).drop
    (min (jsClamp l.length s) (jsClamp l.length e))

/-- JavaScript `str.substring(s)` (to the end of the string). -/
def jsSubstring1 (l : List Char) (s : Int) : List Char :=
  l.drop (jsClamp l.length s)

/-- JavaScript `str.split(c)` for a single-character separator (the source
splits on `/\n/` and on `'='`).  `''.split(c)` is `['']`, and a trailing
separator yields a trailing empty piece, exactly as in JavaScript. -/
def splitChar (c : Char) : List Char → List (List Char)
  | [] => [[]]
  | x :: xs =>
    if x == c then [] :: splitChar c xs
    else
      match splitChar c xs with
      | [] => [[x]]
      | h :: t => (x :: h) :: t

/-- JavaScript `str.startsWith(pat)` (also the anchored-literal part of the
`^...` regexp tests): `startsWithL pat l` holds when `l` begins with `pat`. -/
def startsWithL : List Char → List Char → Bool
  | [], _ => true
  | _ :: _, [] => false
  | p :: ps, x :: xs => p == x && startsWithL ps xs

/-- Association-list lookup for the `createdTracks` plain object, keyed by
the index-suffix string; the most recent assignment for a key shadows older
ones (assignments cons to the front). -/
def lookupKey (k : List Char) : List (List Char × Nat) → Option Nat
  | [] => none
  | (k', v) :: rest => if k = k' then some v else lookupKey k rest

/-- Models `Ember.String.camelize` on the arguments the parser feeds it:
none of them contains a separator character (`-`, `_`, `.`, whitespace, `/`),
so camelize reduces to lower-casing the first character.
(`camelize('File') = 'file'`, `camelize('Numberofentries') = 'numberofentries'`,
`camelize('') = ''`.) -/
def camelize : List Char → List Char
  | [] => []
  | c :: rest => c.toLower :: rest

/-- `PLAYLIST_TYPE` from the source. -/
def PLAYLIST_TYPE : List Char := "pls".toList

/-- The `NUMBER_OF_ENTRIES` constant from the source: note the exact casing,
lowercase `o` and lowercase `e`. -/
def NUMBER_OF_ENTRIES : List Char := "Numberofentries".toList

/-- The `VERSION` constant from the source. -/
def VERSION : List Char := "Version".toList

/-- One track object.  `file`/`length`/`title` are the fields the literal
`{file: '', length: -1, title: ''}` starts with; `extra` holds properties
assigned under any other name (the parser can assign under the name `''`
when a matching line has no `=` and its key retains no digit), newest first
with older bindings for the same name removed. -/
structure Track where
  file : JSVal
  length : JSVal
  title : JSVal
  extra : List (List Char × JSVal)
deriving DecidableEq

/-- The fresh track literal `{file: '', length: -1, title: ''}`. -/
def newTrack : Track :=
  { file := .str [], length := .num (-1), title := .str [], extra := [] }

/-- JavaScript property assignment `track[name] = v` on a track object. -/
def setProp (t : Track) (name : List Char) (v : JSVal) : Track :=
  if name = "file".toList then { t with file := v }
  else if name = "length".toList then { t with length := v }
  else if name = "title".toList then { t with title := v }
  else { t with extra := (name, v) :: t.extra.filter (fun p => !(p.1 == name)) }

/-- The `pls` result object.  The initializer spells its entry-count key
`numberofentries` (all lowercase), which is exactly what
`camelize('Numberofentries')` produces, so the later dynamic assignments
`pls[camelize(NUMBER_OF_ENTRIES)]` and `pls[camelize(VERSION)]` hit the
`numberofentries` and `version` fields. -/
structure Pls where
  numberofentries : JSVal
  playlistType : List Char
  tracks : List Track
  version : JSVal
deriving DecidableEq

/-- The default-initialized `pls` object. -/
def initPls : Pls :=
  { numberofentries := .num 0
    playlistType := PLAYLIST_TYPE
    tracks := []
    version := .num 2 }

/-- The loop state: the `pls` object under construction together with the
`createdTracks` record (index-suffix string to position in `pls.tracks`). -/
structure ParseState where
  pls : Pls
  createdTracks : List (List Char × Nat)
deriving DecidableEq

/-- The state at the top of the iteration: default `pls`, empty record. -/
def initState : ParseState := { pls := initPls, createdTracks := [] }

/-- `entry.slice(0, entry.indexOf('='))` — the key part of a track-property
line.  When the line has no `=`, `indexOf` is `-1` and `slice(0, -1)` drops
the final character. -/
def trackKey (entry : List Char) : List Char :=
  jsSlice2 entry 0 (jsIndexOf '=' entry)

/-- `entry.slice(entry.indexOf('=') + 1)` — the value part of a
track-property line.  When the line has no `=`, this is `slice(0)`, the whole
line. -/
def trackValue (entry : List Char) : List Char :=
  jsSlice1 entry (jsIndexOf '=' entry + 1)

/-- `camelize(key.substring(0, key.search(/\d/)))` — the normalized property
name (`file`, `length`, `title`; `''` when the key holds no digit). -/
def trackPropertyName (entry : List Char) : List Char :=
  camelize (jsSubstring2 (trackKey entry) 0 (jsSearchDigit (trackKey entry)))

/-- `key.substring(key.search(/\d/))` — the index-suffix string
(`existingTrackKey` in the source). -/
def trackSuffix (entry : List Char) : List Char :=
  jsSubstring1 (trackKey entry) (jsSearchDigit (trackKey entry))

/-- One alternative of `/^(File|Length|Title)\d+/`: the keyword at the start
of the line, immediately followed by at least one digit. -/
def kwCheck (kw : List Char) (l : List Char) : Bool :=
  startsWithL kw l &&
    match (l.drop kw.length).head? with
    | some c => c.isDigit
    | none => false

/-- `TRACK_PROPERTY_MATCHER.test(entry)` for
`TRACK_PROPERTY_MATCHER = /^(File|Length|Title)\d+/`. -/
def testTrackProperty (l : List Char) : Bool :=
  kwCheck ("File").toList l || kwCheck ("Length").toList l || kwCheck ("Title").toList l

/-- `entry.split('=')[1]` as a JavaScript value: the second piece of the
split when it exists, `undefined` otherwise. -/
def secondField (entry : List Char) : JSVal :=
  match (splitChar '=' entry).get? 1 with
  | some s => .str s
  | none => .undefined

/-- JavaScript truthiness of `createdTracks[existingTrackKey]`: `undefined`
(a missing key) and the number `0` are both falsy; any other recorded
position is truthy.  A track recorded at position 0 therefore fails the
source's `if (createdTracks[existingTrackKey])` membership test. -/
def jsTruthy : Option Nat → Bool
  | none => false
  | some n => n != 0

/-- The body of the `plsParts.forEach` callback.  The source binds local
variables `key`, `value`, `trackPropertyName`, `existingTrackKey`; here the
corresponding named definitions are applied at their use sites, and the two
reads of `createdTracks[existingTrackKey]` (the truthiness test and the
array index) both appear as lookups, as in the source.  Returns `none`
exactly where the JavaScript would throw: reading `pls.tracks[pos]` past the
end of the array yields `undefined`, and the property assignment on it would
raise a `TypeError` (this never happens: recorded positions are always in
bounds, see the totality theorem). -/
def processEntry (st : ParseState) (entry : List Char) : Option ParseState :=
  if testTrackProperty entry then
    if jsTruthy (lookupKey (trackSuffix entry) st.createdTracks) then
      match st.pls.tracks.get?
          ((lookupKey (trackSuffix entry) st.createdTracks).getD 0) with
      | some existingTrack =>
        some { st with pls := { st.pls with
          tracks := st.pls.tracks.set
            ((lookupKey (trackSuffix entry) st.createdTracks).getD 0)
            (setProp existingTrack (trackPropertyName entry)
              (.str (trackValue entry))) } }
      | none => none
    else
      -- Build `{file:'', length:-1, title:''}`, set the one property, push
      -- it, and record `push(track) - 1`, i.e. the pre-push length.
      some { st with
        pls := { st.pls with tracks := st.pls.tracks ++
          [setProp newTrack (trackPropertyName entry) (.str (trackValue entry))] }
        createdTracks := (trackSuffix entry, st.pls.tracks.length) :: st.createdTracks }
  else if startsWithL NUMBER_OF_ENTRIES entry then
    some { st with pls := { st.pls with numberofentries := secondField entry } }
  else if startsWithL VERSION entry then
    some { st with pls := { st.pls with version := secondField entry } }
  else
    some st

/-- `plsParts.forEach(...)`: process the entries in order, threading the
state; a thrown exception (`none`) propagates out. -/
def processLines (st : ParseState) : List (List Char) → Option ParseState
  | [] => some st
  | e :: es =>
    match processEntry st e with
    | some st' => processLines st' es
    | none => none

/-- The line sequence the parser iterates over: `rawPls.split(/\n/)`
followed by `plsParts.unshift()`.  `unshift` called with no arguments
inserts nothing and removes nothing (it merely returns the length), so the
split result is iterated unchanged and the header line is still
`plsParts[0]`. -/
def plsParts (rawPls : List Char) : List (List Char) :=
  splitChar '\n' rawPls

/-- A parse outcome: the returned `pls` object together with the sequence of
`Logger.error` emissions (message, raw input) the call performed. -/
structure ParseResult where
  pls : Pls
  log : List (List Char × List Char)
deriving DecidableEq

/-- The `plsParser` function.  `none` models a thrown exception (which, as
proved below, never occurs). -/
def plsParserL (rawPls : List Char) : Option ParseResult :=
  -- `if (!/^\[playlist\]/.test(rawPls))`: log one error and return the
  -- default object without looking at the rest of the input.
  if !(startsWithL ("[playlist]").toList rawPls) then
    some { pls := initPls
           log := [("Invalid pls file.  Received: ".toList, rawPls)] }
  else
    match processLines initState (plsParts rawPls) with
    | some st => some { pls := st.pls, log := [] }
    | none => none

/-- `plsParser` on an actual string argument. -/
def plsParser (rawPls : String) : Option ParseResult :=
  plsParserL rawPls.toList

/-! ### Helper lemmas about the string primitives -/

theorem firstIdx_eq_none (p : Char → Bool) (l : List Char)
    (h : ∀ x ∈ l, p x = false) : firstIdx p l = none := by
  induction l with
  | nil => rfl
  | cons x xs ih =>
    have hx : p x = false := h x (List.mem_cons_self x xs)
    have hxs : firstIdx p xs = none :=
      ih (fun y hy => h y (List.mem_cons_of_mem x hy))
    simp [firstIdx, hx, hxs]

theorem firstIdx_cons (p : Char → Bool) (x : Char) (xs : List Char) :
    firstIdx p (x :: xs) =
      if p x then some 0 else (firstIdx p xs).map (· + 1) := rfl

theorem firstIdx_append (p : Char → Bool) (l₁ l₂ : List Char)
    (h : ∀ x ∈ l₁, p x = false) :
    firstIdx p (l₁ ++ l₂) = (firstIdx p l₂).map (· + l₁.length) := by
  induction l₁ with
  | nil => cases h₂ : firstIdx p l₂ <;> simp [h₂]
  | cons x xs ih =>
    have hx : p x = false := h x (List.mem_cons_self x xs)
    have ih' := ih (fun y hy => h y (List.mem_cons_of_mem x hy))
    rw [List.cons_append, firstIdx_cons, hx, if_neg Bool.false_ne_true, ih']
    cases h₂ : firstIdx p l₂ <;> simp [h₂] <;> omega

theorem jsIndexOf_of_not_mem (c : Char) (l : List Char) (h : c ∉ l) :
    jsIndexOf c l = -1 := by
  have : firstIdx (fun x => x == c) l = none :=
    firstIdx_eq_none _ _ (fun x hx => by
      rw [beq_eq_false_iff_ne]
      rintro rfl
      exact h hx)
  simp [jsIndexOf, this]

theorem jsNormIdx_coe (len n : Nat) (h : n ≤ len) : jsNormIdx len (n : Int) = n := by
  unfold jsNormIdx
  split <;> omega

theorem jsNormIdx_neg_one (len : Nat) : jsNormIdx len (-1) = len - 1 := by
  unfold jsNormIdx
  split <;> omega

theorem jsNormIdx_zero (len : Nat) : jsNormIdx len 0 = 0 := by
  unfold jsNormIdx
  split <;> omega

theorem jsClamp_coe (len n : Nat) (h : n ≤ len) : jsClamp len (n : Int) = n := by
  unfold jsClamp
  omega

theorem jsClamp_zero (len : Nat) : jsClamp len 0 = 0 := by
  unfold jsClamp
  omega

theorem jsClamp_neg_one (len : Nat) : jsClamp len (-1) = 0 := by
  unfold jsClamp
  omega

theorem splitChar_ne_nil (c : Char) (l : List Char) : splitChar c l ≠ [] := by
  induction l with
  | nil => simp [splitChar]
  | cons x xs ih =>
    unfold splitChar
    split
    · simp
    · cases h : splitChar c xs <;> simp

theorem splitChar_of_not_mem (c : Char) (l : List Char) (h : c ∉ l) :
    splitChar c l = [l] := by
  induction l with
  | nil => rfl
  | cons x xs ih =>
    have hx : (x == c) = false := by
      rw [beq_eq_false_iff_ne]
      rintro rfl
      exact h (List.mem_cons_self x xs)
    have hxs : splitChar c xs = [xs] := ih (fun hm => h (List.mem_cons_of_mem x hm))
    simp [splitChar, hx, hxs]

theorem splitChar_cons (c x : Char) (xs : List Char) :
    splitChar c (x :: xs) =
      if x == c then [] :: splitChar c xs
      else
        match splitChar c xs with
        | [] => [[x]]
        | h :: t => (x :: h) :: t := rfl

theorem splitChar_append (c : Char) (l₁ r : List Char) (h : c ∉ l₁) :
    splitChar c (l₁ ++ c :: r) = l₁ :: splitChar c r := by
  induction l₁ with
  | nil =>
    rw [List.nil_append, splitChar_cons]
    simp
  | cons x xs ih =>
    have hx : (x == c) = false := by
      rw [beq_eq_false_iff_ne]
      rintro rfl
      exact h (List.mem_cons_self x xs)
    have hxs := ih (fun hm => h (List.mem_cons_of_mem x hm))
    rw [List.cons_append, splitChar_cons, hx, if_neg Bool.false_ne_true, hxs]

theorem splitChar_head_takeWhile (c : Char) (b : List Char) :
    ∃ t, splitChar c b = (b.takeWhile (fun x => !(x == c))) :: t := by
  induction b with
  | nil => exact ⟨[], rfl⟩
  | cons x xs ih =>
    by_cases hx : (x == c) = true
    · refine ⟨splitChar c xs, ?_⟩
      simp [splitChar, hx, List.takeWhile]
    · obtain ⟨t, ht⟩ := ih
      refine ⟨t, ?_⟩
      rw [Bool.not_eq_true] at hx
      simp [splitChar, hx, ht, List.takeWhile]

theorem startsWithL_append (l t : List Char) : startsWithL l (l ++ t) = true := by
  induction l with
  | nil => rfl
  | cons x xs ih => simp [startsWithL, ih]

theorem startsWithL_of_head_ne (p x : Char) (ps t : List Char) (h : x ≠ p) :
    startsWithL (p :: ps) (x :: t) = false := by
  have : (p == x) = false := by
    rw [beq_eq_false_iff_ne]
    exact fun hpx => h hpx.symm
  simp [startsWithL, this]

theorem testTrackProperty_head_ne (x : Char) (t : List Char)
    (hF : x ≠ 'F') (hL : x ≠ 'L') (hT : x ≠ 'T') :
    testTrackProperty (x :: t) = false := by
  unfold testTrackProperty kwCheck
  rw [show ("File".toList) = 'F' :: "ile".toList from rfl,
      show ("Length".toList) = 'L' :: "ength".toList from rfl,
      show ("Title".toList) = 'T' :: "itle".toList from rfl,
      startsWithL_of_head_ne _ _ _ _ hF,
      startsWithL_of_head_ne _ _ _ _ hL,
      startsWithL_of_head_ne _ _ _ _ hT]
  simp

/-! ### Evaluation of the extraction pipeline on well-formed property lines -/

theorem jsIndexOf_line (kw s v : List Char) (hkw : '=' ∉ kw) (hs : '=' ∉ s) :
    jsIndexOf '=' (kw ++ s ++ '=' :: v) = ((kw ++ s).length : Int) := by
  have hno : ∀ x ∈ kw ++ s, (fun x => x == '=') x = false := by
    intro x hx
    rw [beq_eq_false_iff_ne]
    rintro rfl
    rcases List.mem_append.1 hx with h | h
    · exact hkw h
    · exact hs h
  have hfi : firstIdx (fun x => x == '=') (kw ++ s ++ '=' :: v) =
      some ((kw ++ s).length) := by
    rw [firstIdx_append _ _ _ hno]
    simp [firstIdx_cons]
  unfold jsIndexOf
  rw [hfi]

theorem trackKey_eq (kw s v : List Char) (hkw : '=' ∉ kw) (hs : '=' ∉ s) :
    trackKey (kw ++ s ++ '=' :: v) = kw ++ s := by
  have hlen : (kw ++ s).length ≤ (kw ++ s ++ '=' :: v).length := by
    simp [List.length_append]
  unfold trackKey
  rw [jsIndexOf_line _ _ _ hkw hs]
  unfold jsSlice2
  rw [jsNormIdx_zero, jsNormIdx_coe _ _ hlen, List.drop_zero, List.take_left]

theorem trackValue_eq (kw s v : List Char) (hkw : '=' ∉ kw) (hs : '=' ∉ s) :
    trackValue (kw ++ s ++ '=' :: v) = v := by
  have hsplit : kw ++ s ++ '=' :: v = ((kw ++ s) ++ ['=']) ++ v := by
    simp
  have hlen1 : (((kw ++ s) ++ ['=']).length : Int) = ((kw ++ s).length : Int) + 1 := by
    simp
    omega
  have hle : ((kw ++ s) ++ ['=']).length ≤ (kw ++ s ++ '=' :: v).length := by
    simp [List.length_append]
  unfold trackValue
  rw [jsIndexOf_line _ _ _ hkw hs]
  unfold jsSlice1
  rw [← hlen1, jsNormIdx_coe _ _ hle]
  conv_lhs => rw [hsplit]
  exact List.drop_left _ _

theorem jsSearchDigit_key (kw s : List Char) (d : Char) (rest : List Char)
    (hkwd : ∀ x ∈ kw, x.isDigit = false)
    (hsd : s = d :: rest) (hd : d.isDigit = true) :
    jsSearchDigit (kw ++ s) = (kw.length : Int) := by
  have hfi : firstIdx (fun x => x.isDigit) (kw ++ s) = some kw.length := by
    rw [firstIdx_append _ _ _ hkwd, hsd]
    simp [firstIdx_cons, hd]
  unfold jsSearchDigit
  rw [hfi]

theorem trackSuffix_eq (kw s v : List Char) (d : Char) (rest : List Char)
    (hkw : '=' ∉ kw) (hs : '=' ∉ s) (hkwd : ∀ x ∈ kw, x.isDigit = false)
    (hsd : s = d :: rest) (hd : d.isDigit = true) :
    trackSuffix (kw ++ s ++ '=' :: v) = s := by
  have hlen : kw.length ≤ (kw ++ s).length := by simp
  unfold trackSuffix
  rw [trackKey_eq _ _ _ hkw hs, jsSearchDigit_key _ _ _ _ hkwd hsd hd]
  unfold jsSubstring1
  rw [jsClamp_coe _ _ hlen, List.drop_left]

theorem trackPropertyName_eq (kw s v : List Char) (d : Char) (rest : List Char)
    (hkw : '=' ∉ kw) (hs : '=' ∉ s) (hkwd : ∀ x ∈ kw, x.isDigit = false)
    (hsd : s = d :: rest) (hd : d.isDigit = true) :
    trackPropertyName (kw ++ s ++ '=' :: v) = camelize kw := by
  have hlen : kw.length ≤ (kw ++ s).length := by simp
  unfold trackPropertyName
  rw [trackKey_eq _ _ _ hkw hs, jsSearchDigit_key _ _ _ _ hkwd hsd hd]
  unfold jsSubstring2
  rw [jsClamp_zero, jsClamp_coe _ _ hlen]
  simp only [Nat.max_eq_right (Nat.zero_le _), Nat.min_eq_left (Nat.zero_le _),
    List.drop_zero, List.take_left]

theorem kwCheck_self (kw s v : List Char) (d : Char) (rest : List Char)
    (hsd : s = d :: rest) (hd : d.isDigit = true) :
    kwCheck kw (kw ++ s ++ '=' :: v) = true := by
  subst hsd
  unfold kwCheck
  rw [List.append_assoc, startsWithL_append, List.drop_left]
  simp [hd]

theorem testTrackProperty_file (s v : List Char) (d : Char) (rest : List Char)
    (hsd : s = d :: rest) (hd : d.isDigit = true) :
    testTrackProperty ("File".toList ++ s ++ '=' :: v) = true := by
  unfold testTrackProperty
  rw [kwCheck_self _ _ _ _ _ hsd hd]
  simp

theorem testTrackProperty_title (s v : List Char) (d : Char) (rest : List Char)
    (hsd : s = d :: rest) (hd : d.isDigit = true) :
    testTrackProperty ("Title".toList ++ s ++ '=' :: v) = true := by
  unfold testTrackProperty
  rw [kwCheck_self _ _ _ _ _ hsd hd]
  simp

theorem testTrackProperty_noe (x : List Char) :
    testTrackProperty (NUMBER_OF_ENTRIES ++ x) = false := by
  have h : NUMBER_OF_ENTRIES ++ x = 'N' :: ("umberofentries".toList ++ x) := rfl
  rw [h]
  exact testTrackProperty_head_ne _ _ (by decide) (by decide) (by decide)

theorem testTrackProperty_ver (x : List Char) :
    testTrackProperty (VERSION ++ x) = false := by
  have h : VERSION ++ x = 'V' :: ("ersion".toList ++ x) := rfl
  rw [h]
  exact testTrackProperty_head_ne _ _ (by decide) (by decide) (by decide)

theorem startsWithL_noe_ver (x : List Char) :
    startsWithL NUMBER_OF_ENTRIES (VERSION ++ x) = false := by
  have h : VERSION ++ x = 'V' :: ("ersion".toList ++ x) := rfl
  have h2 : NUMBER_OF_ENTRIES = 'N' :: "umberofentries".toList := rfl
  rw [h, h2]
  exact startsWithL_of_head_ne _ _ _ _ (by decide)

theorem secondField_eq (pre b : List Char) (hpre : '=' ∉ pre) :
    secondField (pre ++ '=' :: b) = .str (b.takeWhile (fun x => !(x == '='))) := by
  unfold secondField
  rw [splitChar_append _ _ _ hpre]
  obtain ⟨t, ht⟩ := splitChar_head_takeWhile '=' b
  rw [ht]
  rfl

theorem secondField_undefined (e : List Char) (he : '=' ∉ e) : secondField e = .undefined := by
  unfold secondField
  rw [splitChar_of_not_mem _ _ he]
  rfl

/-! ### Branch lemmas for `processEntry` -/

theorem processEntry_fresh (st : ParseState) (e : List Char)
    (htest : testTrackProperty e = true)
    (hl : lookupKey (trackSuffix e) st.createdTracks = none) :
    processEntry st e = some { st with
      pls := { st.pls with tracks := st.pls.tracks ++
        [setProp newTrack (trackPropertyName e) (.str (trackValue e))] }
      createdTracks := (trackSuffix e, st.pls.tracks.length) :: st.createdTracks } := by
  unfold processEntry
  rw [htest, hl]
  rfl

theorem processEntry_zero (st : ParseState) (e : List Char)
    (htest : testTrackProperty e = true)
    (hl : lookupKey (trackSuffix e) st.createdTracks = some 0) :
    processEntry st e = some { st with
      pls := { st.pls with tracks := st.pls.tracks ++
        [setProp newTrack (trackPropertyName e) (.str (trackValue e))] }
      createdTracks := (trackSuffix e, st.pls.tracks.length) :: st.createdTracks } := by
  unfold processEntry
  rw [htest, hl]
  rfl

theorem processEntry_merge (st : ParseState) (e : List Char) (pos : Nat) (t : Track)
    (htest : testTrackProperty e = true)
    (hl : lookupKey (trackSuffix e) st.createdTracks = some (pos + 1))
    (hg : st.pls.tracks.get? (pos + 1) = some t) :
    processEntry st e = some { st with pls := { st.pls with
      tracks := st.pls.tracks.set (pos + 1)
        (setProp t (trackPropertyName e) (.str (trackValue e))) } } := by
  have ht : jsTruthy (some (pos + 1)) = true := by
    simp [jsTruthy]
  unfold processEntry
  rw [htest, hl, ht, if_pos rfl, if_pos rfl, Option.getD_some, hg]

theorem processEntry_ignored (st : ParseState) (e : List Char)
    (h1 : testTrackProperty e = false)
    (h2 : startsWithL NUMBER_OF_ENTRIES e = false)
    (h3 : startsWithL VERSION e = false) :
    processEntry st e = some st := by
  simp [processEntry, h1, h2, h3]

theorem processEntry_noe (st : ParseState) (e : List Char)
    (htest : testTrackProperty e = false)
    (hn : startsWithL NUMBER_OF_ENTRIES e = true) :
    processEntry st e =
      some { st with pls := { st.pls with numberofentries := secondField e } } := by
  unfold processEntry
  rw [htest, hn]
  rfl

theorem processEntry_version (st : ParseState) (e : List Char)
    (htest : testTrackProperty e = false)
    (hn : startsWithL NUMBER_OF_ENTRIES e = false)
    (hv : startsWithL VERSION e = true) :
    processEntry st e =
      some { st with pls := { st.pls with version := secondField e } } := by
  unfold processEntry
  rw [htest, hn, hv]
  rfl

theorem lookupKey_cons (k k' : List Char) (v : Nat) (rest : List (List Char × Nat)) :
    lookupKey k ((k', v) :: rest) = if k = k' then some v else lookupKey k rest := rfl

/-- Invariant of the iteration: every position recorded in `createdTracks`
is a valid index into `pls.tracks` (so `pls.tracks[pos]` never yields
`undefined`). -/
def InBounds (st : ParseState) : Prop :=
  ∀ k pos, lookupKey k st.createdTracks = some pos → pos < st.pls.tracks.length

theorem processEntry_preserves (st : ParseState) (e : List Char)
    (h : InBounds st) :
    ∃ st', processEntry st e = some st' ∧ InBounds st' ∧
      st'.pls.playlistType = st.pls.playlistType := by
  by_cases htest : testTrackProperty e = true
  · cases hl : lookupKey (trackSuffix e) st.createdTracks with
    | none =>
      refine ⟨_, processEntry_fresh st e htest hl, ?_, rfl⟩
      intro k pos hk
      rw [lookupKey_cons] at hk
      by_cases hks : k = trackSuffix e
      · rw [if_pos hks] at hk
        injection hk with hk
        simp [List.length_append]
        omega
      · rw [if_neg hks] at hk
        have := h k pos hk
        simp [List.length_append]
        omega
    | some pos =>
      cases pos with
      | zero =>
        refine ⟨_, processEntry_zero st e htest hl, ?_, rfl⟩
        intro k pos hk
        rw [lookupKey_cons] at hk
        by_cases hks : k = trackSuffix e
        · rw [if_pos hks] at hk
          injection hk with hk
          simp [List.length_append]
          omega
        · rw [if_neg hks] at hk
          have := h k pos hk
          simp [List.length_append]
          omega
      | succ i =>
        have hlt : i + 1 < st.pls.tracks.length := h _ _ hl
        obtain ⟨t, hg⟩ : ∃ t, st.pls.tracks.get? (i + 1) = some t :=
          ⟨_, List.get?_eq_get hlt⟩
        refine ⟨_, processEntry_merge st e i t htest hl hg, ?_, rfl⟩
        intro k pos hk
        rw [List.length_set]
        exact h k pos hk
  · rw [Bool.not_eq_true] at htest
    by_cases hn : startsWithL NUMBER_OF_ENTRIES e = true
    · exact ⟨_, processEntry_noe st e htest hn, h, rfl⟩
    · rw [Bool.not_eq_true] at hn
      by_cases hv : startsWithL VERSION e = true
      · exact ⟨_, processEntry_version st e htest hn hv, h, rfl⟩
      · rw [Bool.not_eq_true] at hv
        exact ⟨_, processEntry_ignored st e htest hn hv, h, rfl⟩

theorem processLines_total (lines : List (List Char)) (st : ParseState)
    (h : InBounds st) :
    ∃ st', processLines st lines = some st' ∧ InBounds st' ∧
      st'.pls.playlistType = st.pls.playlistType := by
  induction lines generalizing st with
  | nil => exact ⟨st, rfl, h, rfl⟩
  | cons e es ih =>
    obtain ⟨st1, he, h1, hp1⟩ := processEntry_preserves st e h
    obtain ⟨st2, hes, h2, hp2⟩ := ih st1 h1
    refine ⟨st2, ?_, h2, hp2.trans hp1⟩
    unfold processLines
    rw [he]
    exact hes

theorem inBounds_init : InBounds initState := by
  intro k pos hk
  simp [initState, lookupKey] at hk

/-- Exhaustive description of one iteration step: either the line leaves
tracks and record untouched (meta lines and ignored lines), or it appends a
fresh one-property track and records its suffix at the pre-push length, or
it merges into the track at a recorded nonzero position. -/
theorem processEntry_cases (st : ParseState) (e : List Char) (hinb : InBounds st) :
    ∃ st', processEntry st e = some st' ∧ InBounds st' ∧
      ((st'.pls.tracks = st.pls.tracks ∧ st'.createdTracks = st.createdTracks) ∨
       (testTrackProperty e = true ∧
         st'.pls.tracks = st.pls.tracks ++
           [setProp newTrack (trackPropertyName e) (.str (trackValue e))] ∧
         st'.createdTracks =
           (trackSuffix e, st.pls.tracks.length) :: st.createdTracks) ∨
       (testTrackProperty e = true ∧
         ∃ pos tr, lookupKey (trackSuffix e) st.createdTracks = some (pos + 1) ∧
           st'.pls.tracks = (st.pls.tracks.set (pos + 1)
             (setProp tr (trackPropertyName e) (.str (trackValue e)))) ∧
           st'.createdTracks = st.createdTracks)) := by
  obtain ⟨st', he, hinb', -⟩ := processEntry_preserves st e hinb
  by_cases htest : testTrackProperty e = true
  · cases hl : lookupKey (trackSuffix e) st.createdTracks with
    | none =>
      rw [processEntry_fresh st e htest hl] at he
      injection he with he
      subst he
      exact ⟨_, processEntry_fresh st e htest hl, hinb',
        Or.inr (Or.inl ⟨htest, rfl, rfl⟩)⟩
    | some pos =>
      cases pos with
      | zero =>
        rw [processEntry_zero st e htest hl] at he
        injection he with he
        subst he
        exact ⟨_, processEntry_zero st e htest hl, hinb',
          Or.inr (Or.inl ⟨htest, rfl, rfl⟩)⟩
      | succ i =>
        have hlt : i + 1 < st.pls.tracks.length := hinb _ _ hl
        obtain ⟨tr, hg⟩ : ∃ tr, st.pls.tracks.get? (i + 1) = some tr :=
          ⟨_, List.get?_eq_get hlt⟩
        rw [processEntry_merge st e i tr htest hl hg] at he
        injection he with he
        subst he
        exact ⟨_, processEntry_merge st e i tr htest hl hg, hinb',
          Or.inr (Or.inr ⟨htest, i, tr, rfl, rfl, rfl⟩)⟩
  · rw [Bool.not_eq_true] at htest
    by_cases hn : startsWithL NUMBER_OF_ENTRIES e = true
    · rw [processEntry_noe st e htest hn] at he
      injection he with he
      subst he
      exact ⟨_, processEntry_noe st e htest hn, hinb', Or.inl ⟨rfl, rfl⟩⟩
    · rw [Bool.not_eq_true] at hn
      by_cases hv : startsWithL VERSION e = true
      · rw [processEntry_version st e htest hn hv] at he
        injection he with he
        subst he
        exact ⟨_, processEntry_version st e htest hn hv, hinb', Or.inl ⟨rfl, rfl⟩⟩
      · rw [Bool.not_eq_true] at hv
        rw [processEntry_ignored st e htest hn hv] at he
        injection he with he
        subst he
        exact ⟨_, processEntry_ignored st e htest hn hv, hinb', Or.inl ⟨rfl, rfl⟩⟩

/-- Processing lines none of which is a track-property line with suffix `s`
never records `s` in `createdTracks`. -/
theorem processLines_no_suffix (s : List Char) (lines : List (List Char)) :
    ∀ st : ParseState, InBounds st →
      lookupKey s st.createdTracks = none →
      (∀ e ∈ lines, ¬(testTrackProperty e = true ∧ trackSuffix e = s)) →
      ∃ st', processLines st lines = some st' ∧ InBounds st' ∧
        lookupKey s st'.createdTracks = none := by
  induction lines with
  | nil =>
    intro st h1 h2 _
    exact ⟨st, rfl, h1, h2⟩
  | cons e es ih =>
    intro st hinb hns hno
    obtain ⟨st1, he, h1, hcase⟩ := processEntry_cases st e hinb
    have hns1 : lookupKey s st1.createdTracks = none := by
      rcases hcase with ⟨-, hm⟩ | ⟨htest, -, hm⟩ | ⟨-, pos, tr, -, -, hm⟩
      · rw [hm]
        exact hns
      · have hne : ¬(s = trackSuffix e) :=
          fun heq => hno e (List.mem_cons_self _ _) ⟨htest, heq.symm⟩
        rw [hm, lookupKey_cons, if_neg hne]
        exact hns
      · rw [hm]
        exact hns
    obtain ⟨st2, hes, h2, hns2⟩ := ih st1 h1 hns1
      (fun x hx => hno x (List.mem_cons_of_mem _ hx))
    refine ⟨st2, ?_, h2, hns2⟩
    unfold processLines
    rw [he]
    exact hes

/-- Once a track sits at position `L` and only suffix `s` maps to `L`,
processing lines that never carry suffix `s` leaves the track at `L`
untouched. -/
theorem processLines_preserve_track (s : List Char) (L : Nat) (target : Track)
    (lines : List (List Char)) :
    ∀ st : ParseState, InBounds st →
      st.pls.tracks.get? L = some target →
      (∀ k, lookupKey k st.createdTracks = some L → k = s) →
      (∀ e ∈ lines, ¬(testTrackProperty e = true ∧ trackSuffix e = s)) →
      ∃ st', processLines st lines = some st' ∧
        st'.pls.tracks.get? L = some target := by
  induction lines with
  | nil =>
    intro st _ hget _ _
    exact ⟨st, rfl, hget⟩
  | cons e es ih =>
    intro st hinb hget hmap hno
    have hL : L < st.pls.tracks.length := by
      by_contra hc
      rw [List.get?_eq_none.mpr (Nat.le_of_not_lt hc)] at hget
      exact Option.noConfusion hget
    obtain ⟨st1, he, h1, hcase⟩ := processEntry_cases st e hinb
    have hsne : testTrackProperty e = true → trackSuffix e ≠ s :=
      fun ht hs => hno e (List.mem_cons_self _ _) ⟨ht, hs⟩
    have hget1 : st1.pls.tracks.get? L = some target := by
      rcases hcase with ⟨ht, -⟩ | ⟨-, ht, -⟩ | ⟨htest, pos, tr, hlk, ht, -⟩
      · rw [ht]
        exact hget
      · rw [ht, List.get?_append hL]
        exact hget
      · have hne : pos + 1 ≠ L := by
          intro heq
          exact hsne htest (hmap _ (heq ▸ hlk))
        rw [ht, List.get?_set_ne _ _ hne]
        exact hget
    have hmap1 : ∀ k, lookupKey k st1.createdTracks = some L → k = s := by
      intro k hk
      rcases hcase with ⟨-, hm⟩ | ⟨-, -, hm⟩ | ⟨-, pos, tr, -, -, hm⟩
      · rw [hm] at hk
        exact hmap k hk
      · rw [hm, lookupKey_cons] at hk
        by_cases hks : k = trackSuffix e
        · rw [if_pos hks] at hk
          injection hk with hk
          omega
        · rw [if_neg hks] at hk
          exact hmap k hk
      · rw [hm] at hk
        exact hmap k hk
    obtain ⟨st2, hes, hg2⟩ := ih st1 h1 hget1 hmap1
      (fun x hx => hno x (List.mem_cons_of_mem _ hx))
    refine ⟨st2, ?_, hg2⟩
    unfold processLines
    rw [he]
    exact hes

theorem processLines_append (st : ParseState) (l₁ l₂ : List (List Char)) :
    processLines st (l₁ ++ l₂) =
      match processLines st l₁ with
      | some st' => processLines st' l₂
      | none => none := by
  induction l₁ generalizing st with
  | nil => rfl
  | cons e es ih =>
    rw [List.cons_append]
    show (match processEntry st e with
          | some st1 => processLines st1 (es ++ l₂)
          | none => none) =
      match (match processEntry st e with
             | some st1 => processLines st1 es
             | none => none) with
      | some st' => processLines st' l₂
      | none => none
    cases he : processEntry st e with
    | none => rfl
    | some st1 => exact ih st1

/-- Join a line list with `'\n'`; on newline-free lines this is the inverse
of the `split(/\n/)` step and is used to build concrete documents in theorem
statements. -/
def joinNl : List (List Char) → List Char
  | [] => []
  | l :: ls =>
    match ls with
    | [] => l
    | _ :: _ => l ++ '\n' :: joinNl ls

theorem splitChar_joinNl (entries : List (List Char)) (hne : entries ≠ [])
    (h : ∀ l ∈ entries, '\n' ∉ l) :
    splitChar '\n' (joinNl entries) = entries := by
  induction entries with
  | nil => exact absurd rfl hne
  | cons l ls ih =>
    cases ls with
    | nil =>
      show splitChar '\n' l = [l]
      exact splitChar_of_not_mem _ _ (h l (List.mem_cons_self _ _))
    | cons l2 ls2 =>
      show splitChar '\n' (l ++ '\n' :: joinNl (l2 :: ls2)) = l :: l2 :: ls2
      rw [splitChar_append _ _ _ (h l (List.mem_cons_self _ _)),
        ih (by simp) (fun x hx => h x (List.mem_cons_of_mem _ hx))]

/-! ### Claim theorems: concrete evaluations and simple generalities -/

/-- C1: evaluation of the code at the failing input
`"[playlist]\nFile1=a.mp3\nFile1=b.mp3"`.  Both lines carry the index suffix
`1`, yet the parse produces two separate tracks (`a.mp3` and `b.mp3`) instead
of one merged track with `file = b.mp3`: the first track is recorded at
position 0, which is falsy in the `if (createdTracks[existingTrackKey])`
membership test, so the second line re-creates rather than merges. -/
theorem c1_first_track_never_merges_eval :
    plsParser ("[playlist]\nFile1=a.mp3\nFile1=b.mp3") =
      some { pls := { numberofentries := .num 0
                      playlistType := "pls".toList
                      tracks :=
                        [ { file := .str ("a.mp3").toList, length := .num (-1)
                            title := .str [], extra := [] }
                        , { file := .str ("b.mp3").toList, length := .num (-1)
                            title := .str [], extra := [] } ]
                      version := .num 2 }
             log := [] } := by
  decide

/-- C2: evaluation of the code at the spec's test input.  The actual result
has three tracks, not two (the `Title1` line re-creates instead of merging,
because position 0 is falsy in the membership test), and `numberofentries`
stays `0` because the line `NumberOfEntries=2` does not start with the
code's prefix constant `Numberofentries` (lowercase `o`). -/
theorem c2_actual_output_eval :
    plsParser
        "[playlist]\nFile1=track1.mp3\nTitle1=Song One\nLength1=180\nFile2=track2.mp3\nNumberOfEntries=2\nVersion=2" =
      some { pls := { numberofentries := .num 0
                      playlistType := "pls".toList
                      tracks :=
                        [ { file := .str ("track1.mp3").toList, length := .num (-1)
                            title := .str [], extra := [] }
                        , { file := .str [], length := .str ("180").toList
                            title := .str ("Song One").toList, extra := [] }
                        , { file := .str ("track2.mp3").toList, length := .num (-1)
                            title := .str [], extra := [] } ]
                      version := .str ("2").toList }
             log := [] } := by
  decide

/-- C3: for every input that does not start with `[playlist]` (the empty
string included), the parser emits exactly one diagnostic — the
`Logger.error` call with the fixed message and the raw input — and returns
the default-initialized document, with no further parsing performed. -/
theorem c3_invalid_header_default_and_one_diagnostic (raw : List Char)
    (h : startsWithL ("[playlist]").toList raw = false) :
    plsParserL raw =
      some { pls := initPls
             log := [("Invalid pls file.  Received: ".toList, raw)] } := by
  unfold plsParserL
  rw [h]
  simp

/-- Witness for C3 at the concrete input `""` (the empty string). -/
theorem c3_witness :
    startsWithL ("[playlist]").toList [] = false ∧
    plsParserL [] =
      some { pls := initPls
             log := [("Invalid pls file.  Received: ".toList, [])] } :=
  ⟨by decide, c3_invalid_header_default_and_one_diagnostic [] (by decide)⟩

/-- C5: evaluation of the code at the failing input `"[playlist]\nFile1=x"`.
The iterated line sequence still has both lines, with the header line
`[playlist]` first: `plsParts.unshift()` takes no arguments and removes
nothing, so no leading element is discarded before iterating. -/
theorem c5_no_line_removed_eval :
    plsParts ("[playlist]\nFile1=x").toList =
      ["[playlist]".toList, "File1=x".toList] := by
  decide

/-- C6 counterexample: at the input `"[playlist]\nNumberofentries=2=3"`, the
value assigned to the entry-count field is `"2"` — `entry.split('=')[1]`,
the piece between the first and second `=` — not the full remainder
`"2=3"` the claim requires. -/
theorem c6_counterexample :
    plsParser ("[playlist]\nNumberofentries=2=3") =
      some { pls := { initPls with numberofentries := .str ("2").toList }
             log := [] } ∧
    JSVal.str ("2").toList ≠ JSVal.str ("2=3").toList := by
  decide

/-- C7 counterexample: `"File1"` is a track-property line without `=`; the
extracted value is indeed the whole line, but the extracted key is `"File"`,
the line with its final character removed (`slice(0, -1)`), not the whole
line as the claim states. -/
theorem c7_counterexample :
    testTrackProperty ("File1").toList = true ∧
    jsIndexOf '=' "File1".toList = -1 ∧
    trackValue ("File1").toList = "File1".toList ∧
    trackKey ("File1").toList = "File".toList ∧
    trackKey ("File1").toList ≠ "File1".toList := by
  decide

/-- C6 amended: for a line starting with the prefix `Numberofentries` (and
likewise `Version`), the value assigned to the corresponding field is
`entry.split('=')[1]` — the substring strictly between the first `=` and the
next `=` (or the end of the line), so a value containing `=` is truncated at
it; when the line has no `=` at all, the field is set to `undefined`. -/
theorem c6_amended_split_second_field (st : ParseState) (a b : List Char)
    (ha : '=' ∉ a) :
    (processEntry st (NUMBER_OF_ENTRIES ++ a ++ '=' :: b) =
      some { st with pls := { st.pls with
        numberofentries := .str (b.takeWhile (fun x => !(x == '='))) } }) ∧
    (processEntry st (NUMBER_OF_ENTRIES ++ a) =
      some { st with pls := { st.pls with numberofentries := .undefined } }) ∧
    (processEntry st (VERSION ++ a ++ '=' :: b) =
      some { st with pls := { st.pls with
        version := .str (b.takeWhile (fun x => !(x == '='))) } }) ∧
    (processEntry st (VERSION ++ a) =
      some { st with pls := { st.pls with version := .undefined } }) := by
  have hna : '=' ∉ NUMBER_OF_ENTRIES ++ a := by
    intro h
    rcases List.mem_append.1 h with h | h
    · exact absurd h (by decide)
    · exact ha h
  have hva : '=' ∉ VERSION ++ a := by
    intro h
    rcases List.mem_append.1 h with h | h
    · exact absurd h (by decide)
    · exact ha h
  refine ⟨?_, ?_, ?_, ?_⟩
  · rw [List.append_assoc, processEntry_noe st _ (testTrackProperty_noe _)
      (startsWithL_append _ _), show NUMBER_OF_ENTRIES ++ (a ++ '=' :: b) =
        (NUMBER_OF_ENTRIES ++ a) ++ '=' :: b from (List.append_assoc _ _ _).symm,
      secondField_eq _ _ hna]
  · rw [processEntry_noe st _ (testTrackProperty_noe _) (startsWithL_append _ _),
      secondField_undefined _ hna]
  · rw [List.append_assoc, processEntry_version st _ (testTrackProperty_ver _)
      (startsWithL_noe_ver _) (startsWithL_append _ _),
      show VERSION ++ (a ++ '=' :: b) = (VERSION ++ a) ++ '=' :: b from
        (List.append_assoc _ _ _).symm,
      secondField_eq _ _ hva]
  · rw [processEntry_version st _ (testTrackProperty_ver _)
      (startsWithL_noe_ver _) (startsWithL_append _ _),
      secondField_undefined _ hva]

/-- Witness for the amended C6 at the concrete state `initState` and the
lines `Numberofentries=2=3`, `Numberofentries`, `Version=2=3`, `Version`. -/
theorem c6_amended_witness :
    ('=' ∉ ([] : List Char)) ∧
    (processEntry initState (NUMBER_OF_ENTRIES ++ [] ++ '=' :: "2=3".toList) =
      some { initState with pls := { initState.pls with
        numberofentries := .str ("2=3".toList.takeWhile (fun x => !(x == '='))) } }) ∧
    (processEntry initState (NUMBER_OF_ENTRIES ++ []) =
      some { initState with pls := { initState.pls with
        numberofentries := .undefined } }) :=
  ⟨by decide,
   (c6_amended_split_second_field initState [] ("2=3").toList (by decide)).1,
   (c6_amended_split_second_field initState [] ("2=3").toList (by decide)).2.1⟩

/-- C7 amended: on a track-property line with no `=`, the extracted value is
the whole line, and the extracted key is the line with its final character
removed (`indexOf` returns `-1` and `slice(0, -1)` stops one before the
end). -/
theorem c7_amended_key_drops_last (e : List Char)
    (htest : testTrackProperty e = true) (hne : '=' ∉ e) :
    trackKey e = e.dropLast ∧ trackValue e = e := by
  have hidx : jsIndexOf '=' e = -1 := jsIndexOf_of_not_mem _ _ hne
  constructor
  · unfold trackKey
    rw [hidx]
    unfold jsSlice2
    rw [jsNormIdx_zero, jsNormIdx_neg_one, List.drop_zero, List.dropLast_eq_take]
  · unfold trackValue
    rw [hidx, show (-1 : Int) + 1 = 0 by norm_num]
    unfold jsSlice1
    rw [jsNormIdx_zero, List.drop_zero]

/-- Witness for the amended C7 at the concrete line `File1`. -/
theorem c7_amended_witness :
    testTrackProperty ("File1").toList = true ∧
    '=' ∉ "File1".toList ∧
    (trackKey ("File1").toList = ("File1".toList).dropLast ∧
     trackValue ("File1").toList = "File1".toList) :=
  ⟨by decide, by decide, c7_amended_key_drops_last _ (by decide) (by decide)⟩

/-- C9: a line that matches none of the classification rules — not a
track-property line, not prefixed by `Numberofentries`, not prefixed by
`Version` — leaves the accumulated state (tracks, entry count, version, and
the auxiliary record) completely unchanged. -/
theorem c9_unrecognized_line_no_effect (st : ParseState) (e : List Char)
    (h1 : testTrackProperty e = false)
    (h2 : startsWithL NUMBER_OF_ENTRIES e = false)
    (h3 : startsWithL VERSION e = false) :
    processEntry st e = some st := by
  simp [processEntry, h1, h2, h3]

/-- Witness for C9 at the blank line `""` and the initial state. -/
theorem c9_witness :
    testTrackProperty [] = false ∧
    startsWithL NUMBER_OF_ENTRIES [] = false ∧
    startsWithL VERSION [] = false ∧
    processEntry initState [] = some initState :=
  ⟨by decide, by decide, by decide,
   c9_unrecognized_line_no_effect initState [] (by decide) (by decide) (by decide)⟩

/-- C4: for every input string the parser terminates normally and returns a
playlist document — `none` (the model of a thrown exception) never occurs —
and the returned document carries the `pls` format tag. -/
theorem c4_parser_total (raw : List Char) :
    ∃ res, plsParserL raw = some res ∧ res.pls.playlistType = PLAYLIST_TYPE := by
  by_cases hdr : startsWithL ("[playlist]").toList raw = true
  · obtain ⟨st', hst, hinb, hp⟩ :=
      processLines_total (plsParts raw) initState inBounds_init
    refine ⟨{ pls := st'.pls, log := [] }, ?_, ?_⟩
    · unfold plsParserL
      rw [hdr, hst]
      rfl
    · rw [hp]
      rfl
  · rw [Bool.not_eq_true] at hdr
    refine ⟨{ pls := initPls
              log := [("Invalid pls file.  Received: ".toList, raw)] }, ?_, rfl⟩
    unfold plsParserL
    rw [hdr]
    rfl

/-- C10: the membership test on `createdTracks` checks the recorded position
for truthiness, so: a suffix not yet recorded appends a fresh track and is
recorded at the pre-push length (position 0 for the first track of a parse);
a suffix recorded at position 0 (falsy) again appends a fresh track and
re-records the suffix at the new, nonzero position, instead of merging; a
suffix recorded at a nonzero position merges into the recorded track.
End to end: for the first track's suffix only the third and later lines
merge (into the duplicate created by the second line), while a track
recorded at a position ≥ 1 merges correctly from its second line on. -/
theorem c10_truthiness_membership (st : ParseState) (s v : List Char)
    (d : Char) (rest : List Char) (hsd : s = d :: rest) (hd : d.isDigit = true)
    (hse : '=' ∉ s) :
    (lookupKey s st.createdTracks = none →
      processEntry st ("File".toList ++ s ++ '=' :: v) = some { st with
        pls := { st.pls with tracks := st.pls.tracks ++
          [setProp newTrack ("file").toList (.str v)] }
        createdTracks := (s, st.pls.tracks.length) :: st.createdTracks }) ∧
    (lookupKey s st.createdTracks = some 0 →
      processEntry st ("File".toList ++ s ++ '=' :: v) = some { st with
        pls := { st.pls with tracks := st.pls.tracks ++
          [setProp newTrack ("file").toList (.str v)] }
        createdTracks := (s, st.pls.tracks.length) :: st.createdTracks }) ∧
    (∀ (i : Nat) (t : Track), lookupKey s st.createdTracks = some (i + 1) →
      st.pls.tracks.get? (i + 1) = some t →
      processEntry st ("File".toList ++ s ++ '=' :: v) = some { st with
        pls := { st.pls with tracks :=
          (st.pls.tracks.set (i + 1) (setProp t ("file").toList (.str v))) } }) ∧
    (plsParser ("[playlist]\nFile1=a\nFile1=b") =
      some { pls := { initPls with tracks :=
               [ { file := .str ("a").toList, length := .num (-1)
                   title := .str [], extra := [] }
               , { file := .str ("b").toList, length := .num (-1)
                   title := .str [], extra := [] } ] }
             log := [] }) ∧
    (plsParser ("[playlist]\nFile1=a\nFile1=b\nFile1=c") =
      some { pls := { initPls with tracks :=
               [ { file := .str ("a").toList, length := .num (-1)
                   title := .str [], extra := [] }
               , { file := .str ("c").toList, length := .num (-1)
                   title := .str [], extra := [] } ] }
             log := [] }) ∧
    (plsParser ("[playlist]\nFile1=a\nFile2=x\nFile2=y") =
      some { pls := { initPls with tracks :=
               [ { file := .str ("a").toList, length := .num (-1)
                   title := .str [], extra := [] }
               , { file := .str ("y").toList, length := .num (-1)
                   title := .str [], extra := [] } ] }
             log := [] }) := by
  have htest := testTrackProperty_file s v d rest hsd hd
  have hsuf : trackSuffix ("File".toList ++ s ++ '=' :: v) = s :=
    trackSuffix_eq _ _ _ _ _ (by decide) hse (by decide) hsd hd
  have hnm : trackPropertyName ("File".toList ++ s ++ '=' :: v) = "file".toList := by
    rw [trackPropertyName_eq _ _ _ _ _ (by decide) hse (by decide) hsd hd]
    decide
  have hval : trackValue ("File".toList ++ s ++ '=' :: v) = v :=
    trackValue_eq _ _ _ (by decide) hse
  refine ⟨?_, ?_, ?_, by decide, by decide, by decide⟩
  · intro hl
    rw [processEntry_fresh st _ htest (by rw [hsuf]; exact hl), hsuf, hnm, hval]
  · intro hl
    rw [processEntry_zero st _ htest (by rw [hsuf]; exact hl), hsuf, hnm, hval]
  · intro i t hl hg
    rw [processEntry_merge st _ i t htest (by rw [hsuf]; exact hl) hg, hnm, hval]

/-- Witness for C10: a suffix recorded at position 0 (here `1`, pointing at
the track made from `File1=a`) fails the truthiness test, so `File1=b`
appends a second track and re-records the suffix at position 1. -/
theorem c10_witness :
    lookupKey ("1").toList [("1".toList, 0)] = some 0 ∧
    processEntry
        { pls := { initPls with tracks := [setProp newTrack ("file").toList (.str ("a").toList)] }
          createdTracks := [("1".toList, 0)] }
        ("File".toList ++ "1".toList ++ '=' :: "b".toList) =
      some { pls := { initPls with tracks :=
               [ setProp newTrack ("file").toList (.str ("a").toList)
               , setProp newTrack ("file").toList (.str ("b").toList) ] }
             createdTracks := [("1".toList, 1), ("1".toList, 0)] } :=
  ⟨by decide,
   (c10_truthiness_membership
      { pls := { initPls with tracks := [setProp newTrack ("file").toList (.str ("a").toList)] }
        createdTracks := [("1".toList, 0)] }
      "1".toList ("b").toList '1' [] (by decide) (by decide) (by decide)).2.1
     (by decide)⟩

/-- C8: if the index suffix `s` occurs on exactly one line of the document —
no line before or after is a track-property line with suffix `s` — and that
line is `Title<s>=<v>`, the parse succeeds and the resulting track is
`{file:'', length:-1, title:v}`, placed at the position its first (and only)
appearance created: immediately after the tracks built from the preceding
lines. -/
theorem c8_sole_title_line (pre post : List (List Char)) (s v : List Char)
    (d : Char) (rest : List Char)
    (hsd : s = d :: rest) (hd : d.isDigit = true)
    (hse : '=' ∉ s) (hsn : '\n' ∉ s) (hvn : '\n' ∉ v)
    (hpre : ∀ l ∈ pre, '\n' ∉ l) (hpost : ∀ l ∈ post, '\n' ∉ l)
    (honce : ∀ e ∈ pre ++ post,
      ¬(testTrackProperty e = true ∧ trackSuffix e = s)) :
    ∃ stPre res,
      processLines initState pre = some stPre ∧
      plsParserL ("[playlist]".toList ++ '\n' ::
        joinNl (pre ++ ("Title".toList ++ s ++ '=' :: v) :: post)) = some res ∧
      res.pls.tracks.get? stPre.pls.tracks.length =
        some { file := .str [], length := .num (-1), title := .str v,
               extra := [] } := by
  have htestT : testTrackProperty ("Title".toList ++ s ++ '=' :: v) = true :=
    testTrackProperty_title s v d rest hsd hd
  have hsuf : trackSuffix ("Title".toList ++ s ++ '=' :: v) = s :=
    trackSuffix_eq _ _ _ _ _ (by decide) hse (by decide) hsd hd
  have hnm : trackPropertyName ("Title".toList ++ s ++ '=' :: v) =
      "title".toList := by
    rw [trackPropertyName_eq _ _ _ _ _ (by decide) hse (by decide) hsd hd]
    decide
  have hval : trackValue ("Title".toList ++ s ++ '=' :: v) = v :=
    trackValue_eq _ _ _ (by decide) hse
  have hsetT : setProp newTrack ("title").toList (.str v) =
      { file := .str [], length := .num (-1), title := .str v, extra := [] } := by
    unfold setProp
    rw [if_neg (by decide), if_neg (by decide), if_pos rfl]
    simp [newTrack]
  obtain ⟨stPre, hpreRun, hinbPre, hnsPre⟩ :=
    processLines_no_suffix s pre initState inBounds_init rfl
      (fun e he2 => honce e (List.mem_append.2 (Or.inl he2)))
  have htitle : processEntry stPre ("Title".toList ++ s ++ '=' :: v) =
      some { stPre with
        pls := { stPre.pls with tracks := stPre.pls.tracks ++
          [setProp newTrack
            (trackPropertyName ("Title".toList ++ s ++ '=' :: v))
            (.str (trackValue ("Title".toList ++ s ++ '=' :: v)))] }
        createdTracks := (trackSuffix ("Title".toList ++ s ++ '=' :: v),
          stPre.pls.tracks.length) :: stPre.createdTracks } :=
    processEntry_fresh stPre _ htestT (by rw [hsuf]; exact hnsPre)
  rw [hsuf, hnm, hval, hsetT] at htitle
  obtain ⟨st₁, he₁, hinb₁, -⟩ :=
    processEntry_preserves stPre ("Title".toList ++ s ++ '=' :: v) hinbPre
  rw [htitle] at he₁
  have hRst : { stPre with
      pls := { stPre.pls with tracks := stPre.pls.tracks ++
        [{ file := .str [], length := .num (-1), title := .str v, extra := [] }] }
      createdTracks := (s, stPre.pls.tracks.length) :: stPre.createdTracks } =
      st₁ := Option.some.inj he₁
  have hget₁ : st₁.pls.tracks.get? stPre.pls.tracks.length =
      some { file := .str [], length := .num (-1), title := .str v,
             extra := [] } := by
    rw [← hRst]
    show (stPre.pls.tracks ++
        [({ file := .str [], length := .num (-1), title := .str v,
            extra := [] } : Track)]).get? stPre.pls.tracks.length = _
    exact List.get?_concat_length _ _
  have hmap₁ : ∀ k, lookupKey k st₁.createdTracks =
      some stPre.pls.tracks.length → k = s := by
    intro k hk
    rw [← hRst] at hk
    have hk' : lookupKey k ((s, stPre.pls.tracks.length) ::
        stPre.createdTracks) = some stPre.pls.tracks.length := hk
    rw [lookupKey_cons] at hk'
    by_cases hks : k = s
    · exact hks
    · rw [if_neg hks] at hk'
      have hlt := hinbPre k _ hk'
      omega
  obtain ⟨st₂, hpostRun, hget₂⟩ :=
    processLines_preserve_track s stPre.pls.tracks.length _ post st₁ hinb₁
      hget₁ hmap₁ (fun e he2 => honce e (List.mem_append.2 (Or.inr he2)))
  have hmem : ∀ l ∈ pre ++ ("Title".toList ++ s ++ '=' :: v) :: post,
      '\n' ∉ l := by
    intro l hl
    rcases List.mem_append.1 hl with h | h
    · exact hpre l h
    · rcases List.mem_cons.1 h with rfl | h
      · intro hmem2
        rcases List.mem_append.1 hmem2 with h2 | h2
        · rcases List.mem_append.1 h2 with h3 | h3
          · exact absurd h3 (by decide)
          · exact hsn h3
        · rcases List.mem_cons.1 h2 with h3 | h3
          · exact absurd h3 (by decide)
          · exact hvn h3
      · exact hpost l h
  have hparts : plsParts ("[playlist]".toList ++ '\n' ::
      joinNl (pre ++ ("Title".toList ++ s ++ '=' :: v) :: post)) =
      "[playlist]".toList :: (pre ++ ("Title".toList ++ s ++ '=' :: v) :: post) := by
    unfold plsParts
    rw [splitChar_append _ _ _ (by decide), splitChar_joinNl _ (by simp) hmem]
  have hheadStep : processEntry initState ("[playlist]".toList) = some initState := by
    decide
  have hrun : processLines initState ("[playlist]".toList ::
      (pre ++ ("Title".toList ++ s ++ '=' :: v) :: post)) = some st₂ := by
    show (match processEntry initState ("[playlist]".toList) with
          | some st' =>
            processLines st' (pre ++ ("Title".toList ++ s ++ '=' :: v) :: post)
          | none => none) = some st₂
    rw [hheadStep]
    show processLines initState
        (pre ++ ("Title".toList ++ s ++ '=' :: v) :: post) = some st₂
    rw [processLines_append, hpreRun]
    show (match processEntry stPre ("Title".toList ++ s ++ '=' :: v) with
          | some st' => processLines st' post
          | none => none) = some st₂
    rw [htitle]
    show processLines ({ stPre with
      pls := { stPre.pls with tracks := stPre.pls.tracks ++
        [({ file := .str [], length := .num (-1), title := .str v,
            extra := [] } : Track)] }
      createdTracks :=
        (s, stPre.pls.tracks.length) :: stPre.createdTracks } : ParseState)
        post = some st₂
    rw [hRst]
    exact hpostRun
  have hhdr : startsWithL ("[playlist]").toList ("[playlist]".toList ++ '\n' ::
      joinNl (pre ++ ("Title".toList ++ s ++ '=' :: v) :: post)) = true :=
    startsWithL_append _ _
  refine ⟨stPre, { pls := st₂.pls, log := [] }, hpreRun, ?_, hget₂⟩
  unfold plsParserL
  rw [hhdr, hparts, hrun]
  rfl

/-- Witness for C8: the suffix `5` occurs only on the line `Title5=X`,
preceded by `File1=a`; the resulting track `{file:'', length:-1, title:'X'}`
sits right after the track built from the preceding line. -/
theorem c8_witness :
    (∀ e ∈ ["File1=a".toList] ++ ([] : List (List Char)),
        ¬(testTrackProperty e = true ∧ trackSuffix e = "5".toList)) ∧
    (∃ stPre res,
      processLines initState ["File1=a".toList] = some stPre ∧
      plsParserL ("[playlist]".toList ++ '\n' ::
        joinNl (["File1=a".toList] ++
          ("Title".toList ++ "5".toList ++ '=' :: "X".toList) :: [])) = some res ∧
      res.pls.tracks.get? stPre.pls.tracks.length =
        some { file := .str [], length := .num (-1), title := .str ("X").toList,
               extra := [] }) :=
  ⟨by decide,
   c8_sole_title_line ["File1=a".toList] [] ("5").toList ("X").toList '5' []
     (by decide) (by decide) (by decide) (by decide) (by decide)
     (by decide) (by decide) (by decide)⟩

end PlsParser
